import Mathlib

/-!
Verification of the straw storage-abstraction library against its
specification.  The library's core (the flat-key directory emulator, the
position-independent reader and the buffered atomic writer) is modelled
shallowly from the specification; the repository's conformance tests
(straw_test.go) document the intended observable behaviour.
-/

namespace Straw

/-- Modelled from the spec: the shared error taxonomy of section 7 (the
implementation files are not in the repository snapshot; only the tests
are).  EndOfData is delivered through a separate boolean channel by the
reader model. -/
inductive FsError where
  | notExist
  | alreadyExists
  | isDirectory
  | notADirectory
  | directoryNotEmpty
  | endOfData
  | handleClosed
  deriving Repr, DecidableEq

/-- Modelled from the spec: a flat backend is a single key→blob namespace
(put, head, prefix list, delete); a store is a finite association of
string keys with byte contents (bytes as naturals). -/
abbrev FlatStore := List (String × List Nat)

/-- put(key, bytes): insert or replace the blob at a key. -/
def put : FlatStore → String → List Nat → FlatStore
  | [], k, v => [(k, v)]
  | (k', v') :: rest, k, v =>
    if k' = k then (k, v) :: rest else (k', v') :: put rest k v

/-- head(key): the blob stored at a key, if any. -/
def lookupKey : FlatStore → String → Option (List Nat)
  | [], _ => none
  | (k', v') :: rest, k => if k' = k then some v' else lookupKey rest k

/-- delete(key): remove every entry stored at a key. -/
def deleteKey (s : FlatStore) (k : String) : FlatStore :=
  s.filter (fun e => decide (e.1 ≠ k))

/-- The keys present in a flat store. -/
def keysOf (s : FlatStore) : List String := s.map Prod.fst

/-- Boolean prefix test on character lists. -/
def listPre : List Char → List Char → Bool
  | [], _ => true
  | _ :: _, [] => false
  | a :: as, b :: bs => a == b && listPre as bs

/-- Boolean prefix test on strings (used for key/separator reasoning). -/
def strPre (p k : String) : Bool := listPre p.toList k.toList

/-- Modelled from the spec: paths are normalized to carry no trailing
slash except for the root "/". -/
def normalize (p : String) : String :=
  let cs := (p.toList.reverse.dropWhile (fun c => c == '/')).reverse
  if cs.isEmpty then "/" else String.mk cs

/-- Parent of a path, by rightmost-slash split ("/a/b" ↦ "/a", "/a" ↦ "/"). -/
def parentOf (p : String) : String :=
  let r := (p.toList.reverse.dropWhile (fun c => c != '/')).drop 1
  if r.isEmpty then "/" else String.mk r.reverse

/-- Final path segment ("/a/b" ↦ "b"). -/
def lastSeg (p : String) : String :=
  String.mk (p.toList.reverse.takeWhile (fun c => c != '/')).reverse

/-- The listing key of a directory: the path followed by the separator. -/
def dirPre (p : String) : String := if p = "/" then "/" else p ++ "/"

/-- Modelled from the spec: a directory exists iff a directory marker
exists for it or any object key is a strict descendant of it (both are
exactly the keys extending `dirPre p`). -/
def dirExB (s : FlatStore) (p : String) : Bool :=
  (keysOf s).any (fun k => strPre (dirPre p) k)

/-- A file exists at a path iff the flat store holds a blob at that key. -/
def isFileB (s : FlatStore) (p : String) : Bool := (lookupKey s p).isSome

/-- A path resolves (to a file or a directory). -/
def existsAtB (s : FlatStore) (p : String) : Bool := isFileB s p || dirExB s p

/-- Whether the parent of a (normalized) path resolves to an existing
directory; the root is always a directory. -/
def parentOkB (s : FlatStore) (p : String) : Bool :=
  let par := normalize (parentOf p)
  par = "/" || dirExB s par

/-- Metadata reported for one entry: name, directory flag, size and
permission bits. -/
structure EntryMetadata where
  name : String
  isDir : Bool
  size : Nat
  mode : Nat
  deriving Repr, DecidableEq

/-- Permission bits reported for files (0644). -/
def fileMode : Nat := 420

/-- Permission bits reported for directories (0755). -/
def dirMode : Nat := 493

/-- Modelled from the spec: directories report a fixed synthetic size. -/
def dirSize : Nat := 4096

/-- Metadata of a file entry: real byte length, mode 0644. -/
def fileEntry (n : String) (sz : Nat) : EntryMetadata :=
  ⟨n, false, sz, fileMode⟩

/-- Metadata of a directory entry: synthetic size 4096, directory flag. -/
def dirEntry (n : String) : EntryMetadata :=
  ⟨n, true, dirSize, dirMode⟩

/-- Modelled from the spec: stat(path).  The root always reports as an
existing directory; otherwise a head probe decides file existence and a
prefix probe decides directory existence. -/
def statFn (s : FlatStore) (path : String) : Except FsError EntryMetadata :=
  let p := normalize path
  if p = "/" then .ok (dirEntry "/")
  else
    match lookupKey s p with
    | some bs => .ok (fileEntry (lastSeg p) bs.length)
    | none => if dirExB s p then .ok (dirEntry (lastSeg p)) else .error .notExist

/-- Modelled from the spec: mkdir(path) fails NotExist if the parent does
not resolve to an existing directory, fails AlreadyExists if the path
already resolves, and otherwise writes a directory marker.  Not
recursive.  The permission argument is accepted but directories report
fixed bits. -/
def mkdirOp (s : FlatStore) (path : String) (_mode : Nat) : Except FsError FlatStore :=
  let p := normalize path
  if p = "/" then .error .alreadyExists
  else if parentOkB s p then
    if existsAtB s p then .error .alreadyExists
    else .ok (put s (p ++ "/") [])
  else .error .notExist

/-- The keys witnessing children of a directory: keys extending the
directory's listing key, other than its own marker. -/
def childKeysOf (s : FlatStore) (p : String) : List String :=
  (keysOf s).filter (fun k => strPre (dirPre p) k && k != dirPre p)

/-- Whether a directory has at least one child key. -/
def hasChildB (s : FlatStore) (p : String) : Bool :=
  !(childKeysOf s p).isEmpty

/-- Modelled from the spec: remove(path) fails NotExist if absent, fails
DirectoryNotEmpty on a directory with children, and otherwise deletes
the object or marker. -/
def removeOp (s : FlatStore) (path : String) : Except FsError FlatStore :=
  let p := normalize path
  if p = "/" || dirExB s p then
    if hasChildB s p then .error .directoryNotEmpty
    else .ok (deleteKey s (dirPre p))
  else
    match lookupKey s p with
    | some _ => .ok (deleteKey s p)
    | none => .error .notExist

/-! ### Position-independent reader (spec section 4.3) -/

/-- Modelled from the spec: a read handle owns the object's bytes (total
size captured at creation) and an independent sequential cursor. -/
structure Rdr where
  data : List Nat
  pos : Nat
  deriving Repr, DecidableEq

/-- sequentialRead(buffer): read up to `n` bytes from the cursor,
advancing it; once the cursor has reached the total size, report
end-of-data with zero bytes (and keep re-reporting it). -/
def seqRead (r : Rdr) (n : Nat) : List Nat × Rdr × Bool :=
  if r.data.length ≤ r.pos then ([], r, true)
  else
    let bs := (r.data.drop r.pos).take n
    (bs, ⟨r.data, r.pos + bs.length⟩, false)

/-- positionalRead(buffer, offset): read up to `n` bytes from the given
offset without touching the cursor; end-of-data is reported when the
request reaches past the total size. -/
def posRead (r : Rdr) (n off : Nat) : List Nat × Rdr × Bool :=
  ((r.data.drop off).take n, r, decide (r.data.length < off + n))

/-- The three seek origins (absolute, relative-to-current, relative-to-end). -/
inductive Whence where
  | start
  | current
  | fromEnd
  deriving Repr, DecidableEq

/-- seek(offset, whence): reposition the cursor; no eager fetch, and
seeking past the end is legal. -/
def seekFn (r : Rdr) (off : Int) (w : Whence) : Int × Rdr :=
  let base : Int :=
    match w with
    | .start => 0
    | .current => (r.pos : Int)
    | .fromEnd => (r.data.length : Int)
  let np := base + off
  (np, ⟨r.data, np.toNat⟩)

/-- One operation of a read session, for trace-level statements. -/
inductive ROp where
  | seq (n : Nat)
  | posR (n off : Nat)
  | seekAbs (off : Nat)
  deriving Repr, DecidableEq

/-- Run one operation, returning its observable output (bytes read and
end-of-data flag) and the successor handle state. -/
def stepOp (r : Rdr) : ROp → (List Nat × Bool) × Rdr
  | .seq n =>
    let t := seqRead r n
    ((t.1, t.2.2), t.2.1)
  | .posR n off =>
    let t := posRead r n off
    ((t.1, t.2.2), t.2.1)
  | .seekAbs off => (([], false), (seekFn r (off : Int) .start).2)

/-- Observable outputs of a whole read session. -/
def runOps (r : Rdr) : List ROp → List (List Nat × Bool)
  | [] => []
  | op :: rest => (stepOp r op).1 :: runOps (stepOp r op).2 rest

/-- Handle state after a read session. -/
def stateAfter (r : Rdr) : List ROp → Rdr
  | [] => r
  | op :: rest => stateAfter (stepOp r op).2 rest

/-- Reading everything that remains, in bounded chunks, until the handle
signals end-of-data (the shape of an io.ReadAll loop). -/
def readLoop : Nat → Rdr → List Nat
  | 0, _ => []
  | Nat.succ fuel, r =>
    let t := seqRead r 512
    if t.2.2 then [] else t.1 ++ readLoop fuel t.2.1

/-! ### Buffered atomic writer (spec section 4.4) -/

/-- Modelled from the spec: a write handle accumulates bytes; nothing is
visible until close. -/
structure Wtr where
  wpath : String
  buf : List Nat
  closed : Bool
  deriving Repr, DecidableEq

/-- create(path): fails NotExist/NotADirectory unless the parent resolves
to an existing directory, fails IsADirectory if the path is a directory,
and otherwise returns a fresh write handle.  No permission argument
exists. -/
def createWriteCloser (s : FlatStore) (path : String) : Except FsError Wtr :=
  let p := normalize path
  if p = "/" then .error .isDirectory
  else if parentOkB s p then
    if dirExB s p then .error .isDirectory
    else .ok ⟨p, [], false⟩
  else if (lookupKey s (normalize (parentOf p))).isSome then .error .notADirectory
  else .error .notExist

/-- write(bytes): append to the accumulator; writing to a closed handle
is an error. -/
def wwrite (w : Wtr) (bs : List Nat) : Except FsError Wtr :=
  if w.closed then .error .handleClosed
  else .ok ⟨w.wpath, w.buf ++ bs, false⟩

/-- close(): commit the accumulated content as a single object, fully
replacing any prior content at the path. -/
def wclose (s : FlatStore) (w : Wtr) : Except FsError (FlatStore × Wtr) :=
  if w.closed then .error .handleClosed
  else .ok (put s w.wpath w.buf, ⟨w.wpath, w.buf, true⟩)

/-- The create + write + close circuit on a store. -/
def writeFileOp (s : FlatStore) (path : String) (data : List Nat) :
    Except FsError FlatStore :=
  match createWriteCloser s path with
  | .error e => .error e
  | .ok w =>
    match wwrite w data with
    | .error e => .error e
    | .ok w2 =>
      match wclose s w2 with
      | .error e => .error e
      | .ok (s', _) => .ok s'

/-- open(path): fails NotExist if absent, IsADirectory on a directory;
otherwise a read handle sized from head(path), cursor at zero. -/
def openReadCloser (s : FlatStore) (path : String) : Except FsError Rdr :=
  let p := normalize path
  if p = "/" then .error .isDirectory
  else
    match lookupKey s p with
    | some bs => .ok ⟨bs, 0⟩
    | none => if dirExB s p then .error .isDirectory else .error .notExist

/-! ### Paginated listing and readdir (spec section 4.2) -/

/-- The code point of a character, as a natural number. -/
def cval (c : Char) : Nat := c.val.toNat

/-- Strict lexicographic order on character lists, by code point. -/
def lexLt : List Char → List Char → Bool
  | [], [] => false
  | [], _ :: _ => true
  | _ :: _, [] => false
  | a :: as, b :: bs =>
    if cval a < cval b then true
    else if cval b < cval a then false
    else lexLt as bs

/-- Strict lexicographic order on keys. -/
def keyLt (a b : String) : Bool := lexLt a.toList b.toList

/-- Reflexive lexicographic order on keys. -/
def keyLe (a b : String) : Bool := !keyLt b a

/-- The store's keys in the listing's native (lexicographic) key order. -/
def sortedKeys (s : FlatStore) : List String :=
  List.insertionSort (fun a b => keyLe a b = true) (keysOf s)

/-- The keys of a listing that lie after a continuation token. -/
def pageAfter (l : List String) (tok : Option String) : List String :=
  match tok with
  | none => l
  | some t => l.filter (fun k => keyLt t k)

/-- Modelled from the spec: a paginated listing returns bounded pages
plus a continuation signal; each call returns at most `ps` keys after
the token and reports whether more remain.  `collectPages` is the
client-side loop transparently merging all pages. -/
def collectPages (l : List String) (ps : Nat) : Nat → Option String → List String
  | 0, _ => []
  | Nat.succ fuel, tok =>
    let rem := pageAfter l tok
    let page := rem.take ps
    if ps < rem.length then
      match page.getLast? with
      | some t => page ++ collectPages l ps fuel (some t)
      | none => page
    else page

/-- All keys matching a listing key, obtained by merging every page. -/
def listMerged (s : FlatStore) (pre : String) (ps : Nat) : List String :=
  let l := (sortedKeys s).filter (fun k => strPre pre k)
  collectPages l ps (l.length + 1) none

/-- The immediate child name derived from one listed key: the remainder
after the listing key, truncated at the first separator; the marker key
itself (empty remainder) yields no child. -/
def childNameOf (pre k : String) : Option String :=
  if strPre pre k then
    let nm := (k.toList.drop pre.toList.length).takeWhile (fun c => c != '/')
    if nm.isEmpty then none else some (String.mk nm)
  else none

/-- Metadata reported for an immediate child. -/
def entryFor (s : FlatStore) (pre n : String) : EntryMetadata :=
  if dirExB s (pre ++ n) then dirEntry n
  else
    match lookupKey s (pre ++ n) with
    | some bs => fileEntry n bs.length
    | none => fileEntry n 0

/-- Modelled from the spec: readdir(path) fails NotExist unless the path
is a directory; otherwise it merges all pages of the prefixed listing,
derives immediate child names, collapses duplicates, and reports one
metadata entry per child.  `ps` is the backend's page-size limit. -/
def readdirOp (s : FlatStore) (ps : Nat) (path : String) :
    Except FsError (List EntryMetadata) :=
  let p := normalize path
  if p = "/" || dirExB s p then
    let pre := dirPre p
    let names := ((listMerged s pre ps).filterMap (fun k => childNameOf pre k)).dedup
    .ok (names.map (fun n => entryFor s pre n))
  else .error .notExist

/-- The distinct immediate children of a directory, read off the raw key
set (the ground truth that pagination must reproduce). -/
def childNames (s : FlatStore) (p : String) : List String :=
  ((keysOf s).filterMap (fun k => childNameOf (dirPre p) k)).dedup

/-! ### MkdirAll (layered helper) -/

/-- Split a character list at separators. -/
def splitSeg : List Char → List (List Char)
  | [] => [[]]
  | c :: cs =>
    let r := splitSeg cs
    if c = '/' then [] :: r
    else
      match r with
      | [] => [[c]]
      | g :: gs => (c :: g) :: gs

/-- Cumulative ancestor paths from a list of segments. -/
def cumPaths : List (List Char) → List Char → List (List Char)
  | [], _ => []
  | seg :: rest, acc =>
    let cur := acc ++ '/' :: seg
    cur :: cumPaths rest cur

/-- Every ancestor of a path, shortest first, the path itself last. -/
def ancestorPaths (p : String) : List String :=
  let segs := (splitSeg (normalize p).toList).filter (fun l => !l.isEmpty)
  (cumPaths segs []).map (fun cs => String.mk cs)

/-- The MkdirAll loop body: mkdir each listed path in order, treating
AlreadyExists at any level as success. -/
def mkdirAllGo (m : Nat) : FlatStore → List String → Except FsError FlatStore
  | s, [] => .ok s
  | s, a :: rest =>
    match mkdirOp s a m with
    | .ok s' => mkdirAllGo m s' rest
    | .error .alreadyExists => mkdirAllGo m s rest
    | .error e => .error e

/-- Modelled from the spec: MkdirAll creates every missing ancestor in
order, treating AlreadyExists at any level as success. -/
def mkdirAll (s : FlatStore) (path : String) (m : Nat) : Except FsError FlatStore :=
  mkdirAllGo m s (ancestorPaths path)

/-! ### Basic facts about the flat-store primitives -/

theorem listPre_refl : ∀ l : List Char, listPre l l = true
  | [] => rfl
  | a :: as => by simp [listPre, listPre_refl as]

theorem listPre_append (l m : List Char) : listPre l (l ++ m) = true := by
  induction l with
  | nil => rfl
  | cons a as ih => simp [listPre, ih]

theorem listPre_length {p k : List Char} (h : listPre p k = true) :
    p.length ≤ k.length := by
  induction p generalizing k with
  | nil => simp
  | cons a as ih =>
    cases k with
    | nil => simp [listPre] at h
    | cons b bs =>
      simp only [listPre, Bool.and_eq_true] at h
      simpa using ih h.2

theorem listPre_iff {p k : List Char} :
    listPre p k = true ↔ ∃ m, k = p ++ m := by
  constructor
  · intro h
    induction p generalizing k with
    | nil => exact ⟨k, rfl⟩
    | cons a as ih =>
      cases k with
      | nil => simp [listPre] at h
      | cons b bs =>
        simp only [listPre, Bool.and_eq_true, beq_iff_eq] at h
        obtain ⟨m, hm⟩ := ih h.2
        exact ⟨m, by simp [h.1, hm]⟩
  · rintro ⟨m, rfl⟩
    exact listPre_append p m

theorem listPre_trans {a b c : List Char}
    (h1 : listPre a b = true) (h2 : listPre b c = true) : listPre a c = true := by
  rw [listPre_iff] at h1 h2 ⊢
  obtain ⟨m1, rfl⟩ := h1
  obtain ⟨m2, rfl⟩ := h2
  exact ⟨m1 ++ m2, by simp⟩

theorem strPre_self (p : String) : strPre p p = true := listPre_refl _

theorem toList_append (p q : String) : (p ++ q).toList = p.toList ++ q.toList :=
  String.data_append p q

theorem strPre_append (p q : String) : strPre p (p ++ q) = true := by
  unfold strPre
  rw [toList_append]
  exact listPre_append _ _

theorem strPre_trans {a b c : String}
    (h1 : strPre a b = true) (h2 : strPre b c = true) : strPre a c = true :=
  listPre_trans h1 h2

theorem strPre_length {p k : String} (h : strPre p k = true) :
    p.toList.length ≤ k.toList.length := listPre_length h

/-- A key does not extend its own path followed by the separator. -/
theorem strPre_slash_self (p : String) : strPre (p ++ "/") p = false := by
  rw [Bool.eq_false_iff]
  intro h'
  have hlen := strPre_length h'
  rw [toList_append] at hlen
  have h1 : ("/" : String).toList.length = 1 := rfl
  rw [List.length_append, h1] at hlen
  omega

theorem put_cons_self (k : String) (v v' : List Nat) (rest : FlatStore) :
    put ((k, v') :: rest) k v = (k, v) :: rest := by
  simp [put]

theorem put_cons_ne (k k' : String) (v v' : List Nat) (rest : FlatStore)
    (hk : k' ≠ k) : put ((k', v') :: rest) k v = (k', v') :: put rest k v := by
  simp [put, hk]

theorem mem_keysOf_put (s : FlatStore) (k j : String) (v : List Nat) :
    j ∈ keysOf (put s k v) ↔ j = k ∨ j ∈ keysOf s := by
  induction s with
  | nil => simp [put, keysOf]
  | cons e rest ih =>
    obtain ⟨k', v'⟩ := e
    by_cases hk : k' = k
    · subst hk
      rw [put_cons_self]
      simp only [keysOf, List.map_cons, List.mem_cons]
      tauto
    · rw [put_cons_ne _ _ _ _ _ hk]
      simp only [keysOf, List.map_cons, List.mem_cons]
      rw [keysOf] at ih
      rw [ih]
      tauto

theorem lookupKey_put_self (s : FlatStore) (k : String) (v : List Nat) :
    lookupKey (put s k v) k = some v := by
  induction s with
  | nil => simp [put, lookupKey]
  | cons e rest ih =>
    obtain ⟨k', v'⟩ := e
    by_cases hk : k' = k
    · subst hk
      rw [put_cons_self]
      simp [lookupKey]
    · rw [put_cons_ne _ _ _ _ _ hk]
      simp only [lookupKey, if_neg hk]
      exact ih

theorem lookupKey_put_ne (s : FlatStore) (k j : String) (v : List Nat)
    (h : j ≠ k) : lookupKey (put s k v) j = lookupKey s j := by
  have hkj : k ≠ j := fun hh => h hh.symm
  induction s with
  | nil =>
    simp only [put, lookupKey, if_neg hkj]
  | cons e rest ih =>
    obtain ⟨k', v'⟩ := e
    by_cases hk : k' = k
    · subst hk
      rw [put_cons_self]
      simp [lookupKey, hkj]
    · rw [put_cons_ne _ _ _ _ _ hk]
      simp only [lookupKey]
      by_cases hj : k' = j
      · simp [hj]
      · simp only [if_neg hj]
        exact ih

theorem lookupKey_isSome_iff (s : FlatStore) (k : String) :
    (lookupKey s k).isSome = true ↔ k ∈ keysOf s := by
  induction s with
  | nil => simp [lookupKey, keysOf]
  | cons e rest ih =>
    obtain ⟨k', v'⟩ := e
    by_cases hk : k' = k
    · subst hk
      simp [lookupKey, keysOf]
    · simp only [lookupKey, if_neg hk, keysOf, List.map_cons, List.mem_cons]
      rw [keysOf] at ih
      rw [ih]
      constructor
      · tauto
      · rintro (h | h)
        · exact absurd h.symm hk
        · exact h

theorem keysOf_deleteKey (s : FlatStore) (k : String) :
    keysOf (deleteKey s k) = (keysOf s).filter (fun j => decide (j ≠ k)) := by
  unfold deleteKey keysOf
  induction s with
  | nil => rfl
  | cons e rest ih =>
    simp only [ne_eq, decide_not] at ih ⊢
    simp only [List.filter_cons, List.map_cons]
    by_cases hk : e.1 = k
    · simp [hk, ih]
    · simp [hk, ih]

theorem deleteKey_cons_self (k : String) (v' : List Nat) (rest : FlatStore) :
    deleteKey ((k, v') :: rest) k = deleteKey rest k := by
  simp [deleteKey, List.filter_cons]

theorem deleteKey_cons_ne (k k' : String) (v' : List Nat) (rest : FlatStore)
    (hk : k' ≠ k) : deleteKey ((k', v') :: rest) k = (k', v') :: deleteKey rest k := by
  simp [deleteKey, List.filter_cons, hk]

theorem lookupKey_deleteKey_ne (s : FlatStore) (k j : String) (h : j ≠ k) :
    lookupKey (deleteKey s k) j = lookupKey s j := by
  induction s with
  | nil => rfl
  | cons e rest ih =>
    obtain ⟨k', v'⟩ := e
    by_cases hk : k' = k
    · rw [hk, deleteKey_cons_self, ih]
      have h2 : ¬ k = j := fun hh => h hh.symm
      simp [lookupKey, h2]
    · rw [deleteKey_cons_ne _ _ _ _ hk]
      simp only [lookupKey]
      by_cases hj : k' = j
      · simp [hj]
      · simp only [if_neg hj]
        exact ih

theorem dirExB_iff (s : FlatStore) (p : String) :
    dirExB s p = true ↔ ∃ k ∈ keysOf s, strPre (dirPre p) k = true := by
  unfold dirExB
  rw [List.any_eq_true]

/-- Key-set growth between two stores. -/
def keySub (s s' : FlatStore) : Prop := ∀ k, k ∈ keysOf s → k ∈ keysOf s'

theorem keySub_refl (s : FlatStore) : keySub s s := fun _ h => h

theorem keySub_trans {a b c : FlatStore} (h1 : keySub a b) (h2 : keySub b c) :
    keySub a c := fun k hk => h2 k (h1 k hk)

theorem keySub_put (s : FlatStore) (k : String) (v : List Nat) :
    keySub s (put s k v) := by
  intro j hj
  rw [mem_keysOf_put]
  right
  exact hj

theorem dirExB_mono {s s' : FlatStore} (h : keySub s s') {p : String}
    (hd : dirExB s p = true) : dirExB s' p = true := by
  rw [dirExB_iff] at hd ⊢
  obtain ⟨k, hk, hpre⟩ := hd
  exact ⟨k, h k hk, hpre⟩

theorem parentOkB_mono {s s' : FlatStore} (h : keySub s s') {p : String}
    (hp : parentOkB s p = true) : parentOkB s' p = true := by
  unfold parentOkB at hp ⊢
  rcases Bool.or_eq_true_iff.mp hp with h1 | h1
  · exact Bool.or_eq_true_iff.mpr (Or.inl h1)
  · exact Bool.or_eq_true_iff.mpr (Or.inr (dirExB_mono h h1))

theorem existsAtB_mono {s s' : FlatStore} (h : keySub s s') {p : String}
    (hp : existsAtB s p = true) : existsAtB s' p = true := by
  unfold existsAtB isFileB at hp ⊢
  rcases Bool.or_eq_true_iff.mp hp with h1 | h1
  · rw [lookupKey_isSome_iff] at h1
    exact Bool.or_eq_true_iff.mpr (Or.inl ((lookupKey_isSome_iff s' p).mpr (h p h1)))
  · exact Bool.or_eq_true_iff.mpr (Or.inr (dirExB_mono h h1))

/-- Putting a blob at the path itself does not make the path a directory. -/
theorem dirExB_put_self (s : FlatStore) (p : String) (v : List Nat)
    (hp : p ≠ "/") : dirExB (put s p v) p = dirExB s p := by
  cases hd : dirExB s p with
  | true => exact dirExB_mono (keySub_put s p v) hd
  | false =>
    rw [Bool.eq_false_iff]
    intro h'
    rw [dirExB_iff] at h'
    obtain ⟨k, hk, hpre⟩ := h'
    rw [mem_keysOf_put] at hk
    rcases hk with rfl | hk
    · rw [dirPre, if_neg hp, strPre_slash_self] at hpre
      exact Bool.false_ne_true hpre
    · have : dirExB s p = true := (dirExB_iff s p).mpr ⟨k, hk, hpre⟩
      rw [hd] at this
      exact Bool.false_ne_true this

/-! ### Reader lemmas -/

theorem seqRead_of_le (r : Rdr) (n : Nat) (h : r.data.length ≤ r.pos) :
    seqRead r n = ([], r, true) := by
  unfold seqRead
  rw [if_pos h]

theorem seqRead_of_lt (r : Rdr) (n : Nat) (h : r.pos < r.data.length) :
    seqRead r n = ((r.data.drop r.pos).take n,
      ⟨r.data, r.pos + ((r.data.drop r.pos).take n).length⟩, false) := by
  unfold seqRead
  rw [if_neg (Nat.not_le.mpr h)]

theorem runOps_append (r : Rdr) (l1 l2 : List ROp) :
    runOps r (l1 ++ l2) = runOps r l1 ++ runOps (stateAfter r l1) l2 := by
  induction l1 generalizing r with
  | nil => rfl
  | cons op rest ih =>
    simp only [List.cons_append, runOps, stateAfter, List.append_eq]
    rw [ih]

theorem take_append_drop_length (n : Nat) (l : List Nat) :
    l.take n ++ l.drop (l.take n).length = l := by
  rw [List.length_take]
  rcases le_or_lt n l.length with h | h
  · rw [Nat.min_eq_left h, List.take_append_drop]
  · rw [Nat.min_eq_right (Nat.le_of_lt h), List.drop_length,
      List.take_of_length_le (Nat.le_of_lt h), List.append_nil]

theorem readLoop_eq (fuel : Nat) (r : Rdr) (h : r.data.length - r.pos ≤ fuel) :
    readLoop fuel r = r.data.drop r.pos := by
  induction fuel generalizing r with
  | zero =>
    have hle : r.data.length ≤ r.pos := by omega
    rw [readLoop, List.drop_eq_nil_of_le hle]
  | succ fuel ih =>
    by_cases hle : r.data.length ≤ r.pos
    · rw [readLoop, seqRead_of_le r 512 hle, List.drop_eq_nil_of_le hle]
      rfl
    · have hlt : r.pos < r.data.length := Nat.lt_of_not_le hle
      rw [readLoop, seqRead_of_lt r 512 hlt]
      have hbs : 1 ≤ ((r.data.drop r.pos).take 512).length := by
        rw [List.length_take, List.length_drop]
        omega
      show (r.data.drop r.pos).take 512
          ++ readLoop fuel ⟨r.data, r.pos + ((r.data.drop r.pos).take 512).length⟩
        = r.data.drop r.pos
      rw [ih ⟨r.data, r.pos + ((r.data.drop r.pos).take 512).length⟩
        (by simp only [List.length_take, List.length_drop] at hbs ⊢; omega)]
      show (r.data.drop r.pos).take 512
          ++ r.data.drop (r.pos + ((r.data.drop r.pos).take 512).length)
        = r.data.drop r.pos
      rw [← List.drop_drop]
      exact take_append_drop_length 512 (r.data.drop r.pos)

/-- C2: a positionalRead leaves the handle state (in particular the
sequential cursor) unchanged: in any read session, the sequential reads
before and after an interleaved positionalRead produce exactly the
outputs they produce with the positionalRead removed, and the
positionalRead's own output depends only on its offset — also after
sequential reading has exhausted the data. -/
theorem c2_positional_read_frame (r : Rdr) (pre post : List ROp) (n off : Nat) :
    (posRead (stateAfter r pre) n off).2.1 = stateAfter r pre
    ∧ runOps r (pre ++ ROp.posR n off :: post)
        = runOps r pre
          ++ ((((stateAfter r pre).data.drop off).take n,
                decide ((stateAfter r pre).data.length < off + n))
              :: runOps (stateAfter r pre) post)
    ∧ runOps r (pre ++ post) = runOps r pre ++ runOps (stateAfter r pre) post := by
  refine ⟨rfl, ?_, runOps_append r pre post⟩
  rw [runOps_append]
  rfl

/-- C4: after seeking strictly past the end of the data, the next
sequentialRead signals end-of-data with zero bytes; seeking back to
offset zero afterwards makes sequentialRead deliver the data from the
start again. -/
theorem c4_seek_past_end_then_rewind (data : List Nat) (p0 off n k : Nat)
    (hoff : data.length < off) (hdata : 0 < data.length) :
    seqRead (seekFn ⟨data, p0⟩ (off : Int) Whence.start).2 n
      = ([], (seekFn ⟨data, p0⟩ (off : Int) Whence.start).2, true)
    ∧ (seqRead (seekFn (seekFn ⟨data, p0⟩ (off : Int) Whence.start).2
          0 Whence.start).2 k).1 = data.take k
    ∧ (seqRead (seekFn (seekFn ⟨data, p0⟩ (off : Int) Whence.start).2
          0 Whence.start).2 k).2.2 = false := by
  have h1 : (seekFn (⟨data, p0⟩ : Rdr) (off : Int) Whence.start).2 = ⟨data, off⟩ := by
    simp [seekFn]
  have h2 : (seekFn (⟨data, off⟩ : Rdr) 0 Whence.start).2 = ⟨data, 0⟩ := by
    simp [seekFn]
  rw [h1, h2]
  have hr1 : seqRead (⟨data, off⟩ : Rdr) n = ([], ⟨data, off⟩, true) :=
    seqRead_of_le _ n (Nat.le_of_lt hoff)
  have hr2 : seqRead (⟨data, 0⟩ : Rdr) k
      = ((data.drop 0).take k, ⟨data, 0 + ((data.drop 0).take k).length⟩, false) :=
    seqRead_of_lt _ k hdata
  refine ⟨hr1, ?_, ?_⟩
  · rw [hr2]
    simp
  · rw [hr2]

/-- Witness for C4 at a concrete file and offsets. -/
theorem c4_witness :
    seqRead (seekFn ⟨[5, 6, 7, 8], 0⟩ ((10 : Nat) : Int) Whence.start).2 3
      = ([], (seekFn ⟨[5, 6, 7, 8], 0⟩ ((10 : Nat) : Int) Whence.start).2, true)
    ∧ (seqRead (seekFn (seekFn ⟨[5, 6, 7, 8], 0⟩ ((10 : Nat) : Int) Whence.start).2
          0 Whence.start).2 2).1 = [5, 6, 7, 8].take 2
    ∧ (seqRead (seekFn (seekFn ⟨[5, 6, 7, 8], 0⟩ ((10 : Nat) : Int) Whence.start).2
          0 Whence.start).2 2).2.2 = false :=
  c4_seek_past_end_then_rewind [5, 6, 7, 8] 0 10 3 2 (by decide) (by decide)

/-! ### The create + write + close circuit -/

theorem writeFileOp_ok_cond (s : FlatStore) (path : String) (C : List Nat)
    (h1 : normalize path ≠ "/")
    (h2 : parentOkB s (normalize path) = true)
    (h3 : dirExB s (normalize path) = false) :
    writeFileOp s path C = .ok (put s (normalize path) C) := by
  unfold writeFileOp createWriteCloser
  simp only [h1, if_false, if_neg h1, h2, if_true, h3, Bool.false_eq_true, if_false]
  unfold wwrite wclose
  simp

theorem writeFileOp_ok_inv (s : FlatStore) (path : String) (C : List Nat)
    (s' : FlatStore) (hok : writeFileOp s path C = .ok s') :
    normalize path ≠ "/" ∧ parentOkB s (normalize path) = true
      ∧ dirExB s (normalize path) = false ∧ s' = put s (normalize path) C := by
  unfold writeFileOp createWriteCloser at hok
  by_cases h1 : normalize path = "/"
  · rw [if_pos h1] at hok
    cases hok
  · rw [if_neg h1] at hok
    by_cases h2 : parentOkB s (normalize path) = true
    · rw [if_pos h2] at hok
      by_cases h3 : dirExB s (normalize path) = true
      · rw [if_pos h3] at hok
        cases hok
      · rw [if_neg h3] at hok
        unfold wwrite wclose at hok
        simp only [Bool.false_eq_true, if_false] at hok
        refine ⟨h1, h2, by simpa using h3, ?_⟩
        simp only [List.nil_append] at hok
        cases hok
        rfl
    · rw [if_neg h2] at hok
      by_cases h4 : (lookupKey s (normalize (parentOf (normalize path)))).isSome = true
      · rw [if_pos h4] at hok
        cases hok
      · rw [if_neg h4] at hok
        cases hok

/-- C1: after create + write(C) + close on a path whose parent is an
existing directory (and which is not itself a directory), stat succeeds
and reports size = length(C) and a non-directory. -/
theorem c1_create_write_close_stat (s : FlatStore) (p : String) (C : List Nat)
    (h1 : normalize p ≠ "/") (h2 : parentOkB s (normalize p) = true)
    (h3 : dirExB s (normalize p) = false) :
    ∃ s', writeFileOp s p C = .ok s'
      ∧ ∃ e, statFn s' p = .ok e ∧ e.size = C.length ∧ e.isDir = false := by
  refine ⟨put s (normalize p) C, writeFileOp_ok_cond s p C h1 h2 h3,
    fileEntry (lastSeg (normalize p)) C.length, ?_, rfl, rfl⟩
  unfold statFn
  simp only [if_neg h1]
  rw [lookupKey_put_self]

/-- Witness for C1 on a concrete store. -/
theorem c1_witness :
    ∃ s', writeFileOp [("/d/", [])] "/d/f" [1, 2, 3] = .ok s'
      ∧ ∃ e, statFn s' "/d/f" = .ok e ∧ e.size = 3 ∧ e.isDir = false :=
  c1_create_write_close_stat [("/d/", [])] "/d/f" [1, 2, 3]
    (by decide) (by rfl) (by rfl)

/-- C3: writing content A and then content B to the same path leaves
exactly B visible: the second create + write + close succeeds, and
opening and reading the path to the end yields B, whatever the relative
sizes of A and B. -/
theorem c3_overwrite (s : FlatStore) (p : String) (A B : List Nat)
    (h1 : normalize p ≠ "/") (h2 : parentOkB s (normalize p) = true)
    (h3 : dirExB s (normalize p) = false) :
    ∃ s1 s2, writeFileOp s p A = .ok s1
      ∧ writeFileOp s1 p B = .ok s2
      ∧ ∃ r, openReadCloser s2 p = .ok r ∧ readLoop (B.length + 1) r = B := by
  have hw1 := writeFileOp_ok_cond s p A h1 h2 h3
  have h2' : parentOkB (put s (normalize p) A) (normalize p) = true :=
    parentOkB_mono (keySub_put s (normalize p) A) h2
  have h3' : dirExB (put s (normalize p) A) (normalize p) = false := by
    rw [dirExB_put_self s (normalize p) A h1]
    exact h3
  have hw2 := writeFileOp_ok_cond (put s (normalize p) A) p B h1 h2' h3'
  refine ⟨put s (normalize p) A, put (put s (normalize p) A) (normalize p) B,
    hw1, hw2, ⟨B, 0⟩, ?_, ?_⟩
  · unfold openReadCloser
    simp only [if_neg h1]
    rw [lookupKey_put_self]
  · have := readLoop_eq (B.length + 1) ⟨B, 0⟩ (by simp)
    simpa using this

/-- Witness for C3 on a concrete store, with B shorter than A. -/
theorem c3_witness :
    ∃ s1 s2, writeFileOp [("/d/", [])] "/d/f" [1, 2, 3, 4, 5] = .ok s1
      ∧ writeFileOp s1 "/d/f" [6, 7] = .ok s2
      ∧ ∃ r, openReadCloser s2 "/d/f" = .ok r ∧ readLoop (2 + 1) r = [6, 7] := by
  have h := c3_overwrite [("/d/", [])] "/d/f" [1, 2, 3, 4, 5] [6, 7]
    (by decide) (by rfl) (by rfl)
  simpa using h

/-! ### mkdir and remove -/

theorem mkdirOp_ok_inv (s : FlatStore) (path : String) (m : Nat) (s' : FlatStore)
    (h : mkdirOp s path m = .ok s') :
    normalize path ≠ "/" ∧ parentOkB s (normalize path) = true
      ∧ existsAtB s (normalize path) = false
      ∧ s' = put s (normalize path ++ "/") [] := by
  unfold mkdirOp at h
  by_cases h1 : normalize path = "/"
  · rw [if_pos h1] at h
    cases h
  · rw [if_neg h1] at h
    by_cases h2 : parentOkB s (normalize path) = true
    · rw [if_pos h2] at h
      by_cases h3 : existsAtB s (normalize path) = true
      · rw [if_pos h3] at h
        cases h
      · rw [if_neg h3] at h
        cases h
        exact ⟨h1, h2, by simpa using h3, rfl⟩
    · rw [if_neg h2] at h
      cases h

theorem mkdirOp_already (s : FlatStore) (path : String) (m : Nat)
    (h1 : normalize path ≠ "/") (h2 : parentOkB s (normalize path) = true)
    (h3 : existsAtB s (normalize path) = true) :
    mkdirOp s path m = .error .alreadyExists := by
  unfold mkdirOp
  rw [if_neg h1, if_pos h2, if_pos h3]

theorem statFn_notExist_inv (s : FlatStore) (path : String)
    (h : statFn s path = .error .notExist) :
    normalize path ≠ "/" ∧ lookupKey s (normalize path) = none
      ∧ dirExB s (normalize path) = false := by
  unfold statFn at h
  by_cases h1 : normalize path = "/"
  · rw [if_pos h1] at h
    cases h
  · rw [if_neg h1] at h
    cases hl : lookupKey s (normalize path) with
    | some bs =>
      rw [hl] at h
      cases h
    | none =>
      rw [hl] at h
      by_cases hd : dirExB s (normalize path) = true
      · rw [if_pos hd] at h
        cases h
      · exact ⟨h1, rfl, by simpa using hd⟩

/-- The freshly written directory marker makes its directory exist. -/
theorem dirExB_after_mkdir (s : FlatStore) (p : String) (hp : p ≠ "/") :
    dirExB (put s (p ++ "/") []) p = true := by
  rw [dirExB_iff]
  refine ⟨p ++ "/", ?_, ?_⟩
  · rw [mem_keysOf_put]
    exact Or.inl rfl
  · rw [dirPre, if_neg hp]
    exact strPre_self _

/-- C5: mkdir on a path that a previous mkdir created fails with
AlreadyExists, and mkdir on a path whose parent directory does not exist
fails with NotExist. -/
theorem c5_mkdir_twice_and_missing_parent (s s' : FlatStore) (p q : String) (m : Nat)
    (h1 : mkdirOp s p m = .ok s')
    (hq : statFn s (parentOf (normalize q)) = .error .notExist)
    (hqr : normalize q ≠ "/") :
    mkdirOp s' p m = .error .alreadyExists
    ∧ mkdirOp s q m = .error .notExist := by
  obtain ⟨hp1, hp2, _hp3, hps⟩ := mkdirOp_ok_inv s p m s' h1
  constructor
  · subst hps
    refine mkdirOp_already _ p m hp1
      (parentOkB_mono (keySub_put s (normalize p ++ "/") []) hp2) ?_
    unfold existsAtB
    rw [dirExB_after_mkdir s (normalize p) hp1]
    simp
  · obtain ⟨hn1, hn2, hn3⟩ := statFn_notExist_inv s (parentOf (normalize q)) hq
    have hpar : parentOkB s (normalize q) = false := by
      unfold parentOkB
      simp only [hn3, Bool.or_false]
      simpa using hn1
    unfold mkdirOp
    rw [if_neg hqr, if_neg (by simp [hpar])]

/-- Witness for C5 on concrete stores. -/
theorem c5_witness :
    mkdirOp [("/a/", [])] "/a" 0 = .error .alreadyExists
    ∧ mkdirOp [] "/x/y" 0 = .error .notExist := by
  have h := c5_mkdir_twice_and_missing_parent [] [("/a/", [])] "/a" "/x/y" 0
    (by rfl) (by rfl) (by decide)
  exact h

theorem ne_append_slash (p : String) : p ≠ p ++ "/" := by
  intro h
  have hlen := congrArg (fun s : String => s.toList.length) h
  simp only [toList_append] at hlen
  have h1 : ("/" : String).toList.length = 1 := rfl
  rw [List.length_append, h1] at hlen
  omega

/-- C6: removing a directory with a child fails with DirectoryNotEmpty
and the directory survives; after its sole child is removed, removing the
directory succeeds and stat then fails with NotExist. -/
theorem c6_remove_nonempty_then_empty (s : FlatStore) (p c : String)
    (hnorm : normalize p = p) (hroot : p ≠ "/")
    (hmarker : dirPre p ∈ keysOf s)
    (hsole : childKeysOf s p = [c])
    (hnofile : lookupKey s p = none)
    (hcfile : (lookupKey s c).isSome = true)
    (hcnorm : normalize c = c) (hcroot : c ≠ "/")
    (hcnodir : dirExB s c = false) :
    removeOp s p = .error .directoryNotEmpty
    ∧ statFn s p = .ok (dirEntry (lastSeg p))
    ∧ removeOp s c = .ok (deleteKey s c)
    ∧ removeOp (deleteKey s c) p
        = .ok (deleteKey (deleteKey s c) (dirPre p))
    ∧ statFn (deleteKey (deleteKey s c) (dirPre p)) p = .error .notExist := by
  have hdir : dirExB s p = true := by
    rw [dirExB_iff]
    exact ⟨dirPre p, hmarker, strPre_self _⟩
  have hcmem : c ∈ childKeysOf s p := by
    rw [hsole]
    exact List.mem_singleton.mpr rfl
  have hcprops := List.mem_filter.mp (by unfold childKeysOf at hcmem; exact hcmem)
  have hcmemk : c ∈ keysOf s := hcprops.1
  have hcand := Bool.and_eq_true_iff.mp hcprops.2
  have hcpre : strPre (dirPre p) c = true := hcand.1
  have hcne : c ≠ dirPre p := by
    have := hcand.2
    exact bne_iff_ne.mp this
  have hpc : p ≠ c := by
    intro h
    rw [← h] at hcfile
    rw [hnofile] at hcfile
    cases hcfile
  refine ⟨?_, ?_, ?_, ?_, ?_⟩
  · unfold removeOp
    rw [hnorm]
    rw [if_pos (by rw [hdir]; simp)]
    rw [if_pos (by unfold hasChildB; rw [hsole]; rfl)]
  · unfold statFn
    rw [hnorm, if_neg hroot, hnofile, if_pos hdir]
  · unfold removeOp
    rw [hcnorm]
    rw [if_neg (by simp [hcroot, hcnodir])]
    cases hl : lookupKey s c with
    | none =>
      rw [hl] at hcfile
      cases hcfile
    | some bs => rfl
  · unfold removeOp
    rw [hnorm]
    have hdir1 : dirExB (deleteKey s c) p = true := by
      rw [dirExB_iff]
      refine ⟨dirPre p, ?_, strPre_self _⟩
      rw [keysOf_deleteKey]
      refine List.mem_filter.mpr ⟨hmarker, ?_⟩
      simp only [ne_eq, decide_eq_true_eq]
      exact fun h => hcne h.symm
    rw [if_pos (by rw [hdir1]; simp)]
    have hnochild : childKeysOf (deleteKey s c) p = [] := by
      unfold childKeysOf
      rw [keysOf_deleteKey, List.filter_comm]
      unfold childKeysOf at hsole
      rw [hsole]
      simp
    rw [if_neg (by unfold hasChildB; rw [hnochild]; simp)]
  · have hppre : p ≠ dirPre p := by
      rw [dirPre, if_neg hroot]
      exact ne_append_slash p
    unfold statFn
    rw [hnorm, if_neg hroot]
    rw [lookupKey_deleteKey_ne _ _ _ hppre, lookupKey_deleteKey_ne _ _ _ hpc, hnofile]
    have hnodir2 : dirExB (deleteKey (deleteKey s c) (dirPre p)) p = false := by
      rw [Bool.eq_false_iff]
      intro hd
      rw [dirExB_iff] at hd
      obtain ⟨k, hk, hkpre⟩ := hd
      rw [keysOf_deleteKey] at hk
      obtain ⟨hk1, hk2⟩ := List.mem_filter.mp hk
      rw [keysOf_deleteKey] at hk1
      obtain ⟨hk3, hk4⟩ := List.mem_filter.mp hk1
      have hkchild : k ∈ childKeysOf s p := by
        unfold childKeysOf
        refine List.mem_filter.mpr ⟨hk3, ?_⟩
        rw [Bool.and_eq_true_iff]
        refine ⟨hkpre, ?_⟩
        rw [bne_iff_ne]
        intro h
        rw [h] at hk2
        simp at hk2
      rw [hsole] at hkchild
      have : k = c := List.mem_singleton.mp hkchild
      rw [this] at hk4
      simp at hk4
    rw [if_neg (by simp [hnodir2])]

/-- Witness for C6 on a concrete store. -/
theorem c6_witness :
    removeOp [("/d/", []), ("/d/a", [1])] "/d" = .error .directoryNotEmpty
    ∧ statFn [("/d/", []), ("/d/a", [1])] "/d" = .ok (dirEntry (lastSeg "/d"))
    ∧ removeOp [("/d/", []), ("/d/a", [1])] "/d/a"
        = .ok (deleteKey [("/d/", []), ("/d/a", [1])] "/d/a")
    ∧ removeOp (deleteKey [("/d/", []), ("/d/a", [1])] "/d/a") "/d"
        = .ok (deleteKey (deleteKey [("/d/", []), ("/d/a", [1])] "/d/a") (dirPre "/d"))
    ∧ statFn (deleteKey (deleteKey [("/d/", []), ("/d/a", [1])] "/d/a") (dirPre "/d")) "/d"
        = .error .notExist :=
  c6_remove_nonempty_then_empty [("/d/", []), ("/d/a", [1])] "/d" "/d/a"
    (by rfl) (by decide) (by decide) (by rfl) (by rfl) (by rfl) (by rfl)
    (by decide) (by rfl)

/-! ### MkdirAll idempotence -/

theorem mkdirOp_already_inv (s : FlatStore) (path : String) (m : Nat)
    (h : mkdirOp s path m = .error .alreadyExists) :
    normalize path = "/"
    ∨ (parentOkB s (normalize path) = true ∧ existsAtB s (normalize path) = true) := by
  unfold mkdirOp at h
  by_cases h1 : normalize path = "/"
  · exact Or.inl h1
  · rw [if_neg h1] at h
    by_cases h2 : parentOkB s (normalize path) = true
    · rw [if_pos h2] at h
      by_cases h3 : existsAtB s (normalize path) = true
      · exact Or.inr ⟨h2, h3⟩
      · rw [if_neg h3] at h
        cases h
    · rw [if_neg h2] at h
      cases h

theorem mkdirOp_root (s : FlatStore) (path : String) (m : Nat)
    (h : normalize path = "/") : mkdirOp s path m = .error .alreadyExists := by
  unfold mkdirOp
  rw [if_pos h]

theorem mkdirAllGo_idem (m : Nat) : ∀ (l : List String) (s s' : FlatStore),
    mkdirAllGo m s l = .ok s' →
    keySub s s' ∧ mkdirAllGo m s' l = .ok s'
      ∧ ∀ a ∈ l, normalize a = "/" ∨ existsAtB s' (normalize a) = true := by
  intro l
  induction l with
  | nil =>
    intro s s' h
    cases h
    exact ⟨keySub_refl s, rfl, by simp⟩
  | cons a rest ih =>
    intro s s' h
    cases hmk : mkdirOp s a m with
    | ok s1 =>
      simp only [mkdirAllGo, hmk] at h
      obtain ⟨hsub, hsecond, hexists⟩ := ih s1 s' h
      obtain ⟨ha1, ha2, _ha3, hs1⟩ := mkdirOp_ok_inv s a m s1 hmk
      have hsub' : keySub s s' :=
        keySub_trans (by rw [hs1] at hsub ⊢; exact keySub_put s (normalize a ++ "/") []) hsub
      have hex : existsAtB s' (normalize a) = true := by
        apply existsAtB_mono hsub
        rw [hs1]
        unfold existsAtB
        rw [dirExB_after_mkdir s (normalize a) ha1]
        simp
      have hmk2 : mkdirOp s' a m = .error .alreadyExists :=
        mkdirOp_already s' a m ha1 (parentOkB_mono hsub' ha2) hex
      refine ⟨hsub', ?_, ?_⟩
      · simp only [mkdirAllGo, hmk2]
        exact hsecond
      · intro x hx
        rcases List.mem_cons.mp hx with rfl | hx
        · exact Or.inr hex
        · exact hexists x hx
    | error e =>
      cases e with
      | alreadyExists =>
        simp only [mkdirAllGo, hmk] at h
        obtain ⟨hsub, hsecond, hexists⟩ := ih s s' h
        rcases mkdirOp_already_inv s a m hmk with hroot | ⟨ha2, ha3⟩
        · have hmk2 : mkdirOp s' a m = .error .alreadyExists := mkdirOp_root s' a m hroot
          refine ⟨hsub, ?_, ?_⟩
          · simp only [mkdirAllGo, hmk2]
            exact hsecond
          · intro x hx
            rcases List.mem_cons.mp hx with rfl | hx
            · exact Or.inl hroot
            · exact hexists x hx
        · have hex : existsAtB s' (normalize a) = true := existsAtB_mono hsub ha3
          have hmk2 : mkdirOp s' a m = .error .alreadyExists := by
            by_cases hr : normalize a = "/"
            · exact mkdirOp_root s' a m hr
            · exact mkdirOp_already s' a m hr (parentOkB_mono hsub ha2) hex
          refine ⟨hsub, ?_, ?_⟩
          · simp only [mkdirAllGo, hmk2]
            exact hsecond
          · intro x hx
            rcases List.mem_cons.mp hx with rfl | hx
            · exact Or.inr hex
            · exact hexists x hx
      | notExist =>
        simp only [mkdirAllGo, hmk] at h
        cases h
      | isDirectory =>
        simp only [mkdirAllGo, hmk] at h
        cases h
      | notADirectory =>
        simp only [mkdirAllGo, hmk] at h
        cases h
      | directoryNotEmpty =>
        simp only [mkdirAllGo, hmk] at h
        cases h
      | endOfData =>
        simp only [mkdirAllGo, hmk] at h
        cases h
      | handleClosed =>
        simp only [mkdirAllGo, hmk] at h
        cases h

/-- C7: a successful MkdirAll leaves every ancestor of the path existing,
and running MkdirAll a second time returns no error and leaves the store
exactly as the first call left it (AlreadyExists at every level is
treated as success). -/
theorem c7_mkdirAll_idempotent (s s' : FlatStore) (path : String) (m : Nat)
    (h : mkdirAll s path m = .ok s') :
    mkdirAll s' path m = .ok s'
    ∧ ∀ a ∈ ancestorPaths path,
        normalize a = "/" ∨ existsAtB s' (normalize a) = true := by
  obtain ⟨_, h2, h3⟩ := mkdirAllGo_idem m (ancestorPaths path) s s' h
  exact ⟨h2, h3⟩

/-- Witness for C7: MkdirAll from the empty store, rerun on its own
result. -/
theorem c7_witness :
    mkdirAll [("/foo/", []), ("/foo/bar/", [])] "/foo/bar" 0
      = .ok [("/foo/", []), ("/foo/bar/", [])] :=
  (c7_mkdirAll_idempotent [] [("/foo/", []), ("/foo/bar/", [])] "/foo/bar" 0 (by rfl)).1

/-! ### Trailing slashes and reported permission bits -/

theorem normalize_append_slash (p : String) : normalize (p ++ "/") = normalize p := by
  unfold normalize
  rw [toList_append]
  have h1 : ("/" : String).toList = ['/'] := rfl
  rw [h1, List.reverse_append]
  simp [List.dropWhile]

/-- C10: mkdir and stat accept a trailing slash: they behave exactly as
on the path without it, and after mkdir(p ++ "/") succeeds, stat of the
slashed path reports an existing directory of size 4096. -/
theorem c10_trailing_slash (s s' : FlatStore) (p : String) (m : Nat)
    (hmk : mkdirOp s (p ++ "/") m = .ok s') :
    mkdirOp s (p ++ "/") m = mkdirOp s p m
    ∧ statFn s' (p ++ "/") = statFn s' p
    ∧ statFn s' (p ++ "/") = .ok (dirEntry (lastSeg (normalize p))) := by
  have hn := normalize_append_slash p
  have heq1 : mkdirOp s (p ++ "/") m = mkdirOp s p m := by
    unfold mkdirOp
    rw [hn]
  have heq2 : statFn s' (p ++ "/") = statFn s' p := by
    unfold statFn
    rw [hn]
  obtain ⟨h1, _h2, h3, hs⟩ := mkdirOp_ok_inv s (p ++ "/") m s' hmk
  rw [hn] at h1 h3 hs
  refine ⟨heq1, heq2, ?_⟩
  rw [heq2]
  have hlk : lookupKey s' (normalize p) = none := by
    rw [hs, lookupKey_put_ne _ _ _ _ (ne_append_slash (normalize p))]
    unfold existsAtB isFileB at h3
    cases hl : lookupKey s (normalize p) with
    | none => rfl
    | some bs =>
      rw [hl] at h3
      simp at h3
  have hdir : dirExB s' (normalize p) = true := by
    rw [hs]
    exact dirExB_after_mkdir s (normalize p) h1
  unfold statFn
  simp only [if_neg h1]
  rw [hlk, if_pos hdir]

/-- Witness for C10 on a concrete store. -/
theorem c10_witness :
    mkdirOp [] ("/a" ++ "/") 0 = mkdirOp [] "/a" 0
    ∧ statFn [("/a/", [])] ("/a" ++ "/") = statFn [("/a/", [])] "/a"
    ∧ statFn [("/a/", [])] ("/a" ++ "/") = .ok (dirEntry (lastSeg (normalize "/a"))) :=
  c10_trailing_slash [] [("/a/", [])] "/a" 0 (by rfl)

theorem entryFor_file_mode (s : FlatStore) (pre n : String)
    (h : (entryFor s pre n).isDir = false) : (entryFor s pre n).mode = fileMode := by
  unfold entryFor at h ⊢
  by_cases hd : dirExB s (pre ++ n) = true
  · rw [if_pos hd] at h
    cases h
  · rw [if_neg hd] at h ⊢
    cases lookupKey s (pre ++ n) <;> rfl

theorem readdirOp_ok_inv (s : FlatStore) (ps : Nat) (path : String)
    (entries : List EntryMetadata) (h : readdirOp s ps path = .ok entries) :
    entries = (((listMerged s (dirPre (normalize path)) ps).filterMap
        (fun k => childNameOf (dirPre (normalize path)) k)).dedup).map
        (fun n => entryFor s (dirPre (normalize path)) n) := by
  simp only [readdirOp] at h
  split at h
  · cases h
    rfl
  · cases h

/-- C9: a file written through the create/write/close circuit reports
permission bits 0644 from stat — for every store, path and content, since
create takes no permission argument — and every non-directory entry that
readdir reports carries permission bits 0644. -/
theorem c9_created_file_mode (s : FlatStore) (p : String) (C : List Nat) (s' : FlatStore)
    (hok : writeFileOp s p C = .ok s') :
    (∃ e, statFn s' p = .ok e ∧ e.isDir = false ∧ e.mode = fileMode)
    ∧ ∀ (ps : Nat) (q : String) (entries : List EntryMetadata),
        readdirOp s' ps q = .ok entries →
        ∀ e ∈ entries, e.isDir = false → e.mode = fileMode := by
  obtain ⟨h1, _h2, _h3, hs⟩ := writeFileOp_ok_inv s p C s' hok
  constructor
  · refine ⟨fileEntry (lastSeg (normalize p)) C.length, ?_, rfl, rfl⟩
    unfold statFn
    simp only [if_neg h1]
    rw [hs, lookupKey_put_self]
  · intro ps q entries hrd e he hdir
    rw [readdirOp_ok_inv s' ps q entries hrd] at he
    obtain ⟨n, _hn, rfl⟩ := List.mem_map.mp he
    exact entryFor_file_mode _ _ _ hdir

/-- Witness for C9 on a concrete store. -/
theorem c9_witness :
    ∃ e, statFn [("/d/", []), ("/d/f", [9])] "/d/f" = .ok e
      ∧ e.isDir = false ∧ e.mode = fileMode :=
  (c9_created_file_mode [("/d/", [])] "/d/f" [9] [("/d/", []), ("/d/f", [9])]
    (by rfl)).1

/-! ### The lexicographic key order -/

theorem cval_inj {a b : Char} (h : cval a = cval b) : a = b := by
  unfold cval at h
  exact Char.eq_of_val_eq (UInt32.ext h)

theorem lexLt_asymm : ∀ (l1 l2 : List Char),
    lexLt l1 l2 = true → lexLt l2 l1 = false
  | [], [] => by
    intro h
    cases h
  | [], _ :: _ => fun _ => rfl
  | _ :: _, [] => by
    intro h
    cases h
  | a :: as, b :: bs => by
    intro h
    simp only [lexLt] at h ⊢
    by_cases hab : cval a < cval b
    · rw [if_neg (Nat.lt_asymm hab), if_pos hab]
    · rw [if_neg hab] at h
      by_cases hba : cval b < cval a
      · rw [if_pos hba] at h
        cases h
      · rw [if_neg hba] at h
        rw [if_neg hba, if_neg hab]
        exact lexLt_asymm as bs h

theorem lexLt_connex : ∀ (l1 l2 : List Char),
    lexLt l1 l2 = false → lexLt l2 l1 = false → l1 = l2
  | [], [] => fun _ _ => rfl
  | [], _ :: _ => by
    intro h _
    cases h
  | _ :: _, [] => by
    intro _ h
    cases h
  | a :: as, b :: bs => by
    intro h1 h2
    simp only [lexLt] at h1 h2
    by_cases hab : cval a < cval b
    · rw [if_pos hab] at h1
      cases h1
    · by_cases hba : cval b < cval a
      · rw [if_pos hba] at h2
        cases h2
      · rw [if_neg hab, if_neg hba] at h1
        rw [if_neg hba, if_neg hab] at h2
        have hc : a = b :=
          cval_inj (Nat.le_antisymm (Nat.le_of_not_lt hba) (Nat.le_of_not_lt hab))
        rw [hc, lexLt_connex as bs h1 h2]

theorem lexLt_trans : ∀ (l1 l2 l3 : List Char),
    lexLt l1 l2 = true → lexLt l2 l3 = true → lexLt l1 l3 = true
  | [], _, _ :: _ => fun _ _ => rfl
  | [], _ :: _, [] => by
    intro _ h
    cases h
  | [], [], [] => by
    intro h _
    cases h
  | _ :: _, [], _ => by
    intro h _
    cases h
  | _ :: _, _ :: _, [] => by
    intro _ h
    cases h
  | a :: as, b :: bs, c :: cs => by
    intro h1 h2
    simp only [lexLt] at h1 h2 ⊢
    by_cases hab : cval a < cval b
    · by_cases hbc : cval b < cval c
      · rw [if_pos (Nat.lt_trans hab hbc)]
      · rw [if_neg hbc] at h2
        by_cases hcb : cval c < cval b
        · rw [if_pos hcb] at h2
          cases h2
        · have hbceq : cval b = cval c :=
            Nat.le_antisymm (Nat.le_of_not_lt hcb) (Nat.le_of_not_lt hbc)
          rw [if_pos (hbceq ▸ hab)]
    · rw [if_neg hab] at h1
      by_cases hba : cval b < cval a
      · rw [if_pos hba] at h1
        cases h1
      · rw [if_neg hba] at h1
        have habeq : cval a = cval b :=
          Nat.le_antisymm (Nat.le_of_not_lt hba) (Nat.le_of_not_lt hab)
        by_cases hbc : cval b < cval c
        · rw [if_pos (habeq ▸ hbc)]
        · rw [if_neg hbc] at h2
          by_cases hcb : cval c < cval b
          · rw [if_pos hcb] at h2
            cases h2
          · rw [if_neg hcb] at h2
            rw [if_neg (habeq ▸ hbc), if_neg (habeq ▸ hcb)]
            exact lexLt_trans as bs cs h1 h2

theorem keyLt_asymm {a b : String} (h : keyLt a b = true) : keyLt b a = false :=
  lexLt_asymm _ _ h

theorem keyLt_trans {a b c : String} (h1 : keyLt a b = true)
    (h2 : keyLt b c = true) : keyLt a c = true :=
  lexLt_trans _ _ _ h1 h2

theorem keyLt_connex {a b : String} (h1 : keyLt a b = false)
    (h2 : keyLt b a = false) : a = b := by
  have := lexLt_connex a.toList b.toList h1 h2
  exact String.ext this

theorem keyLe_total (a b : String) : keyLe a b = true ∨ keyLe b a = true := by
  unfold keyLe
  by_cases h : keyLt b a = true
  · right
    rw [keyLt_asymm h]
    rfl
  · left
    rw [Bool.not_eq_true] at h
    rw [h]
    rfl

theorem keyLe_trans {a b c : String} (h1 : keyLe a b = true)
    (h2 : keyLe b c = true) : keyLe a c = true := by
  unfold keyLe at h1 h2 ⊢
  rw [Bool.not_eq_true'] at h1 h2 ⊢
  by_cases h : keyLt c a = true
  · by_cases hb : keyLt b c = true
    · have := keyLt_trans hb h
      rw [h1] at this
      cases this
    · rw [Bool.not_eq_true] at hb
      have hbceq : b = c := keyLt_connex hb h2
      rw [← hbceq] at h
      rw [h1] at h
      cases h
  · rw [Bool.not_eq_true] at h
    exact h

instance : IsTotal String (fun a b => keyLe a b = true) := ⟨keyLe_total⟩

instance : IsTrans String (fun a b => keyLe a b = true) :=
  ⟨fun _ _ _ => keyLe_trans⟩

theorem keyLt_of_keyLe_ne {a b : String} (h1 : keyLe a b = true) (h2 : a ≠ b) :
    keyLt a b = true := by
  unfold keyLe at h1
  rw [Bool.not_eq_true'] at h1
  by_cases h : keyLt a b = true
  · exact h
  · rw [Bool.not_eq_true] at h
    exact absurd (keyLt_connex h h1) h2

theorem sortedKeys_perm (s : FlatStore) : List.Perm (sortedKeys s) (keysOf s) :=
  List.perm_insertionSort _ _

theorem sortedKeys_strict (s : FlatStore) (hwf : (keysOf s).Nodup) :
    (sortedKeys s).Pairwise (fun a b => keyLt a b = true) := by
  have hsorted : (sortedKeys s).Pairwise (fun a b => keyLe a b = true) :=
    List.sorted_insertionSort _ _
  have hnd : (sortedKeys s).Nodup := ((sortedKeys_perm s).symm.nodup) hwf
  have hand := List.Pairwise.and hsorted hnd
  exact hand.imp (fun hab => keyLt_of_keyLe_ne hab.1 hab.2)

theorem pairwise_getLast_not_lt :
    ∀ (xs : List String) (h : xs ≠ []),
      xs.Pairwise (fun a b => keyLt a b = true) →
      ∀ x ∈ xs, ¬ (keyLt (xs.getLast h) x = true)
  | [], h, _ => absurd rfl h
  | [x], h, _ => by
    intro y hy hlt
    have hyx : y = x := List.mem_singleton.mp hy
    have hgl : [x].getLast h = x := rfl
    rw [hyx, hgl] at hlt
    have hfalse := keyLt_asymm hlt
    rw [hfalse] at hlt
    cases hlt
  | x :: y :: rest, _, hp => by
    intro z hz hlt
    rw [List.getLast_cons (List.cons_ne_nil y rest)] at hlt
    rcases List.mem_cons.mp hz with rfl | hz2
    · have hxl : keyLt z ((y :: rest).getLast (List.cons_ne_nil y rest)) = true :=
        (List.pairwise_cons.mp hp).1 _ (List.getLast_mem _)
      rw [keyLt_asymm hxl] at hlt
      cases hlt
    · exact pairwise_getLast_not_lt (y :: rest) (List.cons_ne_nil y rest)
        (List.pairwise_cons.mp hp).2 z hz2 hlt

theorem pageAfter_sublist (l : List String) (tok : Option String) :
    (pageAfter l tok).Sublist l := by
  cases tok with
  | none => exact List.Sublist.refl l
  | some t => exact List.filter_sublist l

theorem filter_lt_getLast_take (rem : List String) (ps : Nat)
    (hp : rem.Pairwise (fun a b => keyLt a b = true))
    (hne : rem.take ps ≠ []) :
    rem.filter (fun k => keyLt ((rem.take ps).getLast hne) k) = rem.drop ps := by
  have hsplit : rem.take ps ++ rem.drop ps = rem := List.take_append_drop ps rem
  have hp' : (rem.take ps ++ rem.drop ps).Pairwise (fun a b => keyLt a b = true) := by
    rw [hsplit]
    exact hp
  rw [List.pairwise_append] at hp'
  obtain ⟨hpt, _hpd, hrel⟩ := hp'
  set t := (rem.take ps).getLast hne with ht
  conv_lhs => rw [← hsplit]
  rw [List.filter_append]
  have h1 : (rem.take ps).filter (fun k => keyLt t k) = [] := by
    rw [List.filter_eq_nil_iff]
    intro x hx
    simp only [Bool.not_eq_true]
    rw [Bool.eq_false_iff]
    exact pairwise_getLast_not_lt (rem.take ps) hne hpt x hx
  have h2 : (rem.drop ps).filter (fun k => keyLt t k) = rem.drop ps := by
    rw [List.filter_eq_self]
    intro b hb
    exact hrel t (ht ▸ List.getLast_mem hne) b hb
  rw [h1, h2, List.nil_append]

theorem pageAfter_pageAfter (l : List String) (tok : Option String) (t : String)
    (ht : t ∈ pageAfter l tok) :
    pageAfter l (some t) = (pageAfter l tok).filter (fun k => keyLt t k) := by
  cases tok with
  | none => rfl
  | some t0 =>
    simp only [pageAfter] at ht ⊢
    have ht0t : keyLt t0 t = true := (List.mem_filter.mp ht).2
    rw [List.filter_filter]
    apply List.filter_congr
    intro k _hk
    by_cases hkt : keyLt t k = true
    · rw [hkt, keyLt_trans ht0t hkt]
      rfl
    · rw [Bool.not_eq_true] at hkt
      rw [hkt]
      rfl

theorem collectPages_eq (l : List String)
    (hl : l.Pairwise (fun a b => keyLt a b = true)) (ps : Nat) (hps : 0 < ps) :
    ∀ (fuel : Nat) (tok : Option String),
      (pageAfter l tok).length ≤ fuel * ps →
      collectPages l ps fuel tok = pageAfter l tok := by
  intro fuel
  induction fuel with
  | zero =>
    intro tok hlen
    have h0 : pageAfter l tok = [] := by
      rw [Nat.zero_mul] at hlen
      exact List.length_eq_zero.mp (Nat.le_zero.mp hlen)
    rw [h0]
    rfl
  | succ fuel ih =>
    intro tok hlen
    have hprem : (pageAfter l tok).Pairwise (fun a b => keyLt a b = true) :=
      hl.sublist (pageAfter_sublist l tok)
    by_cases hlt : ps < (pageAfter l tok).length
    · have hne : (pageAfter l tok).take ps ≠ [] := by
        intro h0
        have hlen0 := congrArg List.length h0
        rw [List.length_take] at hlen0
        simp only [List.length_nil] at hlen0
        rcases Nat.min_eq_zero_iff.mp hlen0 with hz | hz <;> omega
      have hgl := List.getLast?_eq_getLast ((pageAfter l tok).take ps) hne
      simp only [collectPages, hgl, if_pos hlt]
      have hdrop : pageAfter l (some (((pageAfter l tok).take ps).getLast hne))
          = (pageAfter l tok).drop ps := by
        rw [pageAfter_pageAfter l tok _
          (List.mem_of_mem_take (List.getLast_mem hne))]
        exact filter_lt_getLast_take (pageAfter l tok) ps hprem hne
      rw [ih (some (((pageAfter l tok).take ps).getLast hne)) (by
        rw [hdrop, List.length_drop]
        rw [Nat.succ_mul] at hlen
        omega)]
      rw [hdrop, List.take_append_drop]
    · simp only [collectPages, if_neg hlt]
      exact List.take_of_length_le (Nat.le_of_not_lt hlt)

/-! ### Pagination transparency of readdir -/

theorem listMerged_eq (s : FlatStore) (pre : String) (ps : Nat) (hps : 0 < ps)
    (hwf : (keysOf s).Nodup) :
    listMerged s pre ps = (sortedKeys s).filter (fun k => strPre pre k) := by
  unfold listMerged
  have hpw : ((sortedKeys s).filter (fun k => strPre pre k)).Pairwise
      (fun a b => keyLt a b = true) :=
    (sortedKeys_strict s hwf).sublist (List.filter_sublist _)
  have hfuel : (pageAfter ((sortedKeys s).filter (fun k => strPre pre k)) none).length
      ≤ (((sortedKeys s).filter (fun k => strPre pre k)).length + 1) * ps := by
    show ((sortedKeys s).filter (fun k => strPre pre k)).length ≤ _
    have h1 : ((sortedKeys s).filter (fun k => strPre pre k)).length + 1
        ≤ (((sortedKeys s).filter (fun k => strPre pre k)).length + 1) * ps :=
      Nat.le_mul_of_pos_right _ hps
    omega
  exact collectPages_eq _ hpw ps hps _ none hfuel

theorem filterMap_filter_of_none {α β : Type} (f : α → Option β) (p : α → Bool)
    (l : List α) (hf : ∀ x, p x = false → f x = none) :
    (l.filter p).filterMap f = l.filterMap f := by
  induction l with
  | nil => rfl
  | cons a rest ih =>
    by_cases hp : p a = true
    · rw [List.filter_cons_of_pos hp, List.filterMap_cons, List.filterMap_cons]
      cases f a <;> rw [ih]
    · rw [List.filter_cons_of_neg (by simpa using hp), List.filterMap_cons,
        hf a (by simpa using hp), ih]

theorem childNameOf_none_of_not_pre {pre k : String} (h : strPre pre k = false) :
    childNameOf pre k = none := by
  unfold childNameOf
  rw [h]
  rfl

theorem childNameOf_no_slash {pre k n : String} (h : childNameOf pre k = some n) :
    ∀ c ∈ n.toList, c ≠ '/' := by
  unfold childNameOf at h
  by_cases hp : strPre pre k = true
  · rw [if_pos hp] at h
    by_cases he : ((k.toList.drop pre.toList.length).takeWhile
        (fun c => c != '/')).isEmpty = true
    · rw [if_pos he] at h
      cases h
    · rw [if_neg he] at h
      cases h
      intro c hc
      have hc' : c ∈ (k.toList.drop pre.toList.length).takeWhile
          (fun c => c != '/') := hc
      have := List.mem_takeWhile_imp hc'
      simpa using this
  · rw [if_neg hp] at h
    cases h

theorem entryFor_name (s : FlatStore) (pre n : String) :
    (entryFor s pre n).name = n := by
  unfold entryFor
  by_cases hd : dirExB s (pre ++ n) = true
  · rw [if_pos hd]
    rfl
  · rw [if_neg hd]
    cases lookupKey s (pre ++ n) <;> rfl

/-- The names readdir reports are exactly the distinct immediate child
names computed from the raw (unpaginated, unsorted) key set. -/
theorem readdir_names_perm (s : FlatStore) (path : String) (ps : Nat)
    (hps : 0 < ps) (hwf : (keysOf s).Nodup) :
    List.Perm
      ((listMerged s (dirPre (normalize path)) ps).filterMap
        (fun k => childNameOf (dirPre (normalize path)) k)).dedup
      (childNames s (normalize path)) := by
  rw [listMerged_eq s _ ps hps hwf]
  rw [filterMap_filter_of_none _ _ _
    (fun x hx => childNameOf_none_of_not_pre hx)]
  unfold childNames
  exact ((sortedKeys_perm s).filterMap _).dedup

/-- C8: on a directory with more immediate children than fit in one
listing page, readdir still reports exactly one entry per distinct
immediate child: the entry count equals the number of distinct children
derived from the raw key set, the reported names carry no duplicates, and
no reported name reaches into a subdirectory (no separator occurs in any
name). -/
theorem c8_readdir_pagination (s : FlatStore) (path : String) (ps : Nat)
    (entries : List EntryMetadata)
    (hwf : (keysOf s).Nodup) (hps : 0 < ps)
    (_hbig : ps < (childNames s (normalize path)).length)
    (hrd : readdirOp s ps path = .ok entries) :
    entries.length = (childNames s (normalize path)).length
    ∧ (entries.map EntryMetadata.name).Nodup
    ∧ ∀ e ∈ entries, ∀ c ∈ e.name.toList, c ≠ '/' := by
  have hperm := readdir_names_perm s path ps hps hwf
  have hentries := readdirOp_ok_inv s ps path entries hrd
  have hmapname : entries.map EntryMetadata.name
      = ((listMerged s (dirPre (normalize path)) ps).filterMap
          (fun k => childNameOf (dirPre (normalize path)) k)).dedup := by
    rw [hentries, List.map_map]
    have : (EntryMetadata.name ∘ fun n => entryFor s (dirPre (normalize path)) n)
        = id := by
      funext n
      exact entryFor_name s _ n
    rw [this, List.map_id]
  refine ⟨?_, ?_, ?_⟩
  · rw [hentries, List.length_map]
    exact hperm.length_eq
  · rw [hmapname]
    exact List.nodup_dedup _
  · intro e he c hc
    rw [hentries] at he
    obtain ⟨n, hn, rfl⟩ := List.mem_map.mp he
    rw [entryFor_name] at hc
    have hn' : n ∈ (listMerged s (dirPre (normalize path)) ps).filterMap
        (fun k => childNameOf (dirPre (normalize path)) k) := List.mem_dedup.mp hn
    obtain ⟨k, _hk, hck⟩ := List.mem_filterMap.mp hn'
    exact childNameOf_no_slash hck c hc

/-- Witness for C8: five distinct children against a page size of two. -/
theorem c8_witness :
    ([(⟨"a", false, 2, 420⟩ : EntryMetadata), ⟨"b", false, 1, 420⟩,
        ⟨"c", false, 0, 420⟩, ⟨"e", false, 3, 420⟩,
        ⟨"sub", true, 4096, 493⟩] : List EntryMetadata).length
      = (childNames [("/d/", []), ("/d/b", [1]), ("/d/a", [1, 2]), ("/d/sub/", []),
          ("/d/sub/x", [1]), ("/d/c", []), ("/d/e", [1, 1, 1])] (normalize "/d")).length
    ∧ (([(⟨"a", false, 2, 420⟩ : EntryMetadata), ⟨"b", false, 1, 420⟩,
        ⟨"c", false, 0, 420⟩, ⟨"e", false, 3, 420⟩,
        ⟨"sub", true, 4096, 493⟩] : List EntryMetadata).map EntryMetadata.name).Nodup
    ∧ ∀ e ∈ ([(⟨"a", false, 2, 420⟩ : EntryMetadata), ⟨"b", false, 1, 420⟩,
        ⟨"c", false, 0, 420⟩, ⟨"e", false, 3, 420⟩,
        ⟨"sub", true, 4096, 493⟩] : List EntryMetadata),
        ∀ c ∈ e.name.toList, c ≠ '/' :=
  c8_readdir_pagination
    [("/d/", []), ("/d/b", [1]), ("/d/a", [1, 2]), ("/d/sub/", []),
      ("/d/sub/x", [1]), ("/d/c", []), ("/d/e", [1, 1, 1])]
    "/d" 2 _ (by decide) (by decide) (by decide) (by rfl)

end Straw
